import Mathlib

/-!
Verification of the `ccxxv` crossword solving assistant (`src/ccxxv/__init__.py`).

The core of the program is `Solver.solve_single_word`, which matches an answer
pattern against a newline-delimited wordlist using the regular expression

    (?:(?<=\n)|^)(PATTERN)(?:(?=\n)|$)      with re.IGNORECASE

after replacing `.` by `\w` in the pattern, and `Solver.solve_word_pair`, which
combines two such scans at a shared crossing letter marked `+`.

The embedding below models:
  * a compiled pattern as a list of `PTok` tokens (`\w` wildcards, case-folded
    literals, and `[...]` character classes as produced by the `+` replacement
    in `solve_word_pair`);
  * the corpus as the flat list of characters of the wordlist string;
  * `re.findall` of the anchored expression as a left-to-right non-overlapping
    scan (`scanAux`), with fuel for structural termination (the fuel supplied
    by `reFindAll` always suffices, one character is consumed per step);
  * the pair solver with its `ValueError` as an `Except` value.
-/

/-- Token of a compiled pattern: `\w` (from `.` or from `+` in pattern 0),
a literal character (matched case-insensitively because of `re.IGNORECASE`),
or a character class `[...]` (from `+` in pattern 1). -/
inductive PTok where
  | wild : PTok
  | lit : Char → PTok
  | cls : List Char → PTok
deriving DecidableEq, Repr

/-- Python's `\w` on ASCII text: a letter, a digit, or an underscore. -/
def isWordChar (c : Char) : Bool :=
  c.isAlphanum || c == '_'

/-- Does one token match one character?  Literals and classes compare
case-folded on both sides, which is what `re.IGNORECASE` does. -/
def tokMatches : PTok → Char → Bool
  | .wild, c => isWordChar c
  | .lit p, c => p.toLower == c.toLower
  | .cls ps, c => ps.any (fun p => p.toLower == c.toLower)

/-- Does the token list match an initial segment of the character list? -/
def matchHead : List PTok → List Char → Bool
  | [], _ => true
  | _ :: _, [] => false
  | t :: ts, c :: cs => tokMatches t c && matchHead ts cs

/-- Exact match of a whole candidate entry: same length and positionwise. -/
def fullMatch (P : List PTok) (w : List Char) : Bool :=
  P.length == w.length && matchHead P w

/-- Lookahead `(?:(?=\n)|$)`: the scan position is at the end of the corpus
or the next character is a newline. -/
def atLineEnd : List Char → Bool
  | [] => true
  | c :: _ => c == '\n'

/-- One left-to-right pass of `re.findall` for the anchored expression.
`bok` records the lookbehind `(?:(?<=\n)|^)`: the current position is the
corpus start or is preceded by a newline.  After a successful match the scan
resumes at its end (one character further for an empty match, as Python does),
recomputing the lookbehind from the last character passed over.  The fuel
argument only forces structural termination; `reFindAll` supplies enough. -/
def scanAux (P : List PTok) : Nat → Bool → List Char → List (List Char)
  | _, bok, [] => if bok && P.isEmpty then [[]] else []
  | 0, _, _ :: _ => []
  | fuel + 1, bok, c :: cs =>
    if bok && matchHead P (c :: cs) && atLineEnd ((c :: cs).drop P.length) then
      (c :: cs).take P.length ::
        scanAux P fuel (((c :: cs).getD (max P.length 1 - 1) ' ') == '\n')
          ((c :: cs).drop (max P.length 1))
    else
      scanAux P fuel (c == '\n') cs

/-- The full `re.findall(r'(?:(?<=\n)|^)(P)(?:(?=\n)|$)', corpus, re.IGNORECASE)`. -/
def reFindAll (P : List PTok) (corpus : List Char) : List (List Char) :=
  scanAux P corpus.length true corpus

/-- Compilation performed by `solve_single_word`: `pattern.replace('.', r'\w')`,
every other character a literal.  (This models patterns over the documented
alphabet - letters, spaces and hyphens are regex-inert; `+` never reaches
`solve_single_word` unreplaced in the modelled flows.) -/
def toTokens (pattern : List Char) : List PTok :=
  pattern.map (fun c => if c == '.' then .wild else .lit c)

/-- Entry point `Solver.solve_single_word` (src/ccxxv/__init__.py:106-110). -/
def solve_single_word (pattern : List Char) (wordlist : List Char) : List (List Char) :=
  reFindAll (toTokens pattern) wordlist

/-- Compilation of `pattern0.replace('+', r'\w')` followed by the `.`
replacement inside `solve_single_word`: both `.` and `+` become `\w`. -/
def wildcardPlus (pattern : List Char) : List PTok :=
  pattern.map (fun c => if c == '.' then .wild else if c == '+' then .wild else .lit c)

/-- Compilation of `pattern1.replace('+', '[%s]' % ''.join(candidate_chars))`
followed by the `.` replacement: `+` becomes the candidate character class. -/
def classPlus (cands : List Char) (pattern : List Char) : List PTok :=
  pattern.map (fun c => if c == '.' then .wild else if c == '+' then .cls cands else .lit c)

/-- Indexing `word[position]`; in every use below `position` is in bounds
(the Python code would raise `IndexError` otherwise, and never does). -/
def charAt (w : List Char) (i : Nat) : Char :=
  w.getD i '?'

/-- Helper `_chars_at` (src/ccxxv/__init__.py:192-196): the set of lowercased
characters at the given position of the given words, as a deduplicated list. -/
def charsAt (position : Nat) (words : List (List Char)) : List Char :=
  (words.map (fun w => (charAt w position).toLower)).dedup

/-- Error raised by `_find_crossing_points`:
`ValueError('Both arguments need a crossing character "+"')`. -/
inductive SolveError where
  | invalidPattern : SolveError
deriving DecidableEq, Repr

/-- Helper `_find_crossing_points` (src/ccxxv/__init__.py:170-174): the index
of the first `+` of each pattern; `str.find` returns -1 when absent, in which
case the `ValueError` is raised. -/
def find_crossing_points (pattern0 pattern1 : List Char) :
    Except SolveError (Nat × Nat) :=
  match pattern0.findIdx? (· == '+'), pattern1.findIdx? (· == '+') with
  | some i0, some i1 => .ok (i0, i1)
  | _, _ => .error .invalidPattern

/-- Helper `_make_letter_groups` (src/ccxxv/__init__.py:177-189): for each
candidate letter, pair the words of each side whose crossing character
lowercases to that letter, keeping the letter only if both sides are
non-empty. -/
def make_letter_groups (cands : List Char) (position0 : Nat) (words0 : List (List Char))
    (position1 : Nat) (words1 : List (List Char)) :
    List (Char × (List (List Char) × List (List Char))) :=
  cands.filterMap (fun ch =>
    let g0 := words0.filter (fun w => (charAt w position0).toLower == ch)
    let g1 := words1.filter (fun w => (charAt w position1).toLower == ch)
    if g0 ≠ [] ∧ g1 ≠ [] then some (ch, (g0, g1)) else none)

/-- Entry point `Solver.solve_word_pair` (src/ccxxv/__init__.py:112-167).
The result dictionary is modelled as an association list whose keys are
pairwise distinct (`candidate_chars` is a set). -/
def solve_word_pair (pattern0 pattern1 : List Char) (wordlist : List Char) :
    Except SolveError (List (Char × (List (List Char) × List (List Char)))) :=
  match find_crossing_points pattern0 pattern1 with
  | .error e => .error e
  | .ok (c0, c1) =>
    let words0 := reFindAll (wildcardPlus pattern0) wordlist
    let cands := charsAt c0 words0
    if cands.isEmpty then
      .ok []
    else
      .ok (make_letter_groups cands c0 words0 c1
        (reFindAll (classPlus cands pattern1) wordlist))

/-- Corpus entries: the corpus split at newlines, Python `str.split('\n')`
semantics (the empty corpus has one empty entry, a trailing newline yields a
final empty entry). -/
def linesOf : List Char → List (List Char)
  | [] => [[]]
  | c :: cs =>
    if c == '\n' then [] :: linesOf cs
    else
      match linesOf cs with
      | [] => [[c]]
      | l :: ls => (c :: l) :: ls

/-! ### Character case-folding facts

`Char.toLower`/`Char.toUpper` only move the basic latin letters, which is
all the Python `str.lower` calls of the source rely on for its ASCII
wordlists. -/

theorem char_toNat_ofNat_valid {n : Nat} (h : n.isValidChar) : (Char.ofNat n).toNat = n := by
  rw [Char.ofNat, dif_pos h]
  rfl

theorem char_eq_of_toNat_eq {a b : Char} (h : a.toNat = b.toNat) : a = b := by
  apply Char.eq_of_val_eq
  exact UInt32.toNat.inj h

theorem toLower_spec (c : Char) :
    (65 ≤ c.toNat ∧ c.toNat ≤ 90 ∧ (Char.toLower c).toNat = c.toNat + 32) ∨
    (¬(65 ≤ c.toNat ∧ c.toNat ≤ 90) ∧ Char.toLower c = c) := by
  unfold Char.toLower
  by_cases h : c.toNat ≥ 65 ∧ c.toNat ≤ 90
  · left
    refine ⟨h.1, h.2, ?_⟩
    rw [if_pos h]
    exact char_toNat_ofNat_valid (Or.inl (by omega))
  · right
    exact ⟨h, if_neg h⟩

theorem toUpper_spec (c : Char) :
    (97 ≤ c.toNat ∧ c.toNat ≤ 122 ∧ (Char.toUpper c).toNat = c.toNat - 32) ∨
    (¬(97 ≤ c.toNat ∧ c.toNat ≤ 122) ∧ Char.toUpper c = c) := by
  unfold Char.toUpper
  by_cases h : c.toNat ≥ 97 ∧ c.toNat ≤ 122
  · left
    refine ⟨h.1, h.2, ?_⟩
    rw [if_pos h]
    exact char_toNat_ofNat_valid (Or.inl (by omega))
  · right
    exact ⟨h, if_neg h⟩

theorem toLower_toLower (c : Char) : c.toLower.toLower = c.toLower := by
  rcases toLower_spec c with ⟨h1, h2, h3⟩ | ⟨h, h2⟩
  · rcases toLower_spec c.toLower with ⟨g1, g2, _⟩ | ⟨_, g2⟩
    · omega
    · exact g2
  · rw [h2]; exact h2

theorem toUpper_toLower (c : Char) : c.toUpper.toLower = c.toLower := by
  rcases toUpper_spec c with ⟨h1, h2, h3⟩ | ⟨h, h2⟩
  · rcases toLower_spec c.toUpper with ⟨g1, g2, g3⟩ | ⟨g, _⟩
    · rcases toLower_spec c with ⟨k1, k2, _⟩ | ⟨k, k2⟩
      · omega
      · rw [k2]; apply char_eq_of_toNat_eq; omega
    · omega
  · rw [h2]

/-- Case-folding is the identity on characters that are not basic latin
letters; equality with such a character passes through `toLower`. -/
theorem toLower_eq_iff {c c' : Char} (h1 : ¬(65 ≤ c'.toNat ∧ c'.toNat ≤ 90))
    (h2 : ¬(97 ≤ c'.toNat ∧ c'.toNat ≤ 122)) : c.toLower = c' ↔ c = c' := by
  constructor
  · intro h
    rcases toLower_spec c with ⟨g1, g2, g3⟩ | ⟨_, g2⟩
    · exfalso
      apply h2
      rw [← h]
      omega
    · rw [← g2]; exact h
  · intro h
    subst h
    rcases toLower_spec c with ⟨g1, g2, _⟩ | ⟨_, g2⟩
    · omega
    · exact g2

theorem isUpper_iff (c : Char) : c.isUpper = true ↔ 65 ≤ c.toNat ∧ c.toNat ≤ 90 := by
  simp [Char.isUpper, UInt32.le_def, BitVec.le_def, Char.toNat, UInt32.toNat]

theorem isLower_iff (c : Char) : c.isLower = true ↔ 97 ≤ c.toNat ∧ c.toNat ≤ 122 := by
  simp [Char.isLower, UInt32.le_def, BitVec.le_def, Char.toNat, UInt32.toNat]

theorem isDigit_iff (c : Char) : c.isDigit = true ↔ 48 ≤ c.toNat ∧ c.toNat ≤ 57 := by
  simp [Char.isDigit, UInt32.le_def, BitVec.le_def, Char.toNat, UInt32.toNat]

theorem isWordChar_iff (c : Char) :
    isWordChar c = true ↔
      (65 ≤ c.toNat ∧ c.toNat ≤ 90) ∨ (97 ≤ c.toNat ∧ c.toNat ≤ 122) ∨
      (48 ≤ c.toNat ∧ c.toNat ≤ 57) ∨ c.toNat = 95 := by
  have h95 : c == '_' ↔ c.toNat = 95 := by
    constructor
    · intro h
      rw [beq_iff_eq.mp h]
      rfl
    · intro h
      exact beq_iff_eq.mpr (char_eq_of_toNat_eq h)
  simp only [isWordChar, Char.isAlphanum, Char.isAlpha, Bool.or_eq_true,
    isUpper_iff, isLower_iff, isDigit_iff, h95]
  tauto

theorem isWordChar_toLower (c : Char) : isWordChar c.toLower = isWordChar c := by
  rcases toLower_spec c with ⟨h1, h2, h3⟩ | ⟨_, h2⟩
  · have l := isWordChar_iff c.toLower
    have r := isWordChar_iff c
    rw [h3] at l
    have key : isWordChar c.toLower = true ↔ isWordChar c = true := by
      rw [l, r]
      omega
    cases hw : isWordChar c <;> cases hw2 : isWordChar c.toLower <;> simp_all
  · rw [h2]

/-! ### Facts about `linesOf` and head matching -/

theorem linesOf_ne_nil (s : List Char) : linesOf s ≠ [] := by
  cases s with
  | nil => simp [linesOf]
  | cons c cs =>
    simp only [linesOf]
    split
    · simp
    · split <;> simp

theorem newline_not_mem_linesOf {s : List Char} : ∀ l ∈ linesOf s, '\n' ∉ l := by
  induction s with
  | nil =>
    intro l hl
    simp [linesOf] at hl
    simp [hl]
  | cons c cs ih =>
    intro l hl
    simp only [linesOf] at hl
    by_cases hc : c = '\n'
    · rw [if_pos (by simp [hc])] at hl
      rcases List.mem_cons.mp hl with h | h
      · simp [h]
      · exact ih l h
    · rw [if_neg (by simp [hc])] at hl
      rcases heq : linesOf cs with _ | ⟨l0, ls⟩
      · exact absurd heq (linesOf_ne_nil cs)
      · rw [heq] at hl
        rcases List.mem_cons.mp hl with h | h
        · subst h
          intro hmem
          rcases List.mem_cons.mp hmem with h | h
          · exact hc h.symm
          · exact ih l0 (heq ▸ List.mem_cons_self l0 ls) h
        · exact ih l (heq ▸ List.mem_cons_of_mem l0 h)

theorem linesOf_no_newline {s : List Char} (h : '\n' ∉ s) : linesOf s = [s] := by
  induction s with
  | nil => rfl
  | cons c cs ih =>
    have hc : ¬(c = '\n') := fun hh => h (by simp [hh])
    have hcs : '\n' ∉ cs := fun hh => h (List.mem_cons_of_mem c hh)
    simp only [linesOf]
    rw [if_neg (by simp [hc]), ih hcs]

theorem linesOf_append_newline {l r : List Char} (h : '\n' ∉ l) :
    linesOf (l ++ '\n' :: r) = l :: linesOf r := by
  induction l with
  | nil => simp [linesOf]
  | cons c cs ih =>
    have hc : ¬(c = '\n') := fun hh => h (by simp [hh])
    have hcs : '\n' ∉ cs := fun hh => h (List.mem_cons_of_mem c hh)
    simp only [List.cons_append, linesOf, List.append_eq]
    rw [if_neg (by simp [hc]), ih hcs]

theorem linesOf_head_decomp {s l : List Char} {ls : List (List Char)}
    (h : linesOf s = l :: ls) :
    ∃ r, s = l ++ r ∧ (r = [] ∨ ∃ r2, r = '\n' :: r2) := by
  induction s generalizing l ls with
  | nil =>
    simp [linesOf] at h
    exact ⟨[], by simp [h.1], Or.inl rfl⟩
  | cons c cs ih =>
    simp only [linesOf] at h
    by_cases hc : c = '\n'
    · rw [if_pos (by simp [hc])] at h
      have hl : l = [] := (List.cons.injEq _ _ _ _ ▸ h).1.symm
      exact ⟨c :: cs, by simp [hl], Or.inr ⟨cs, by rw [hc]⟩⟩
    · rw [if_neg (by simp [hc])] at h
      rcases heq : linesOf cs with _ | ⟨l0, ls0⟩
      · exact absurd heq (linesOf_ne_nil cs)
      · rw [heq] at h
        obtain ⟨hl, hls⟩ := List.cons.injEq _ _ _ _ ▸ h
        obtain ⟨r, hr1, hr2⟩ := ih (heq.trans (by rw [hls]))
        exact ⟨r, by rw [← hl, List.cons_append, hr1], hr2⟩

theorem matchHead_length {P : List PTok} {s : List Char} (h : matchHead P s = true) :
    P.length ≤ s.length := by
  induction P generalizing s with
  | nil => simp
  | cons t ts ih =>
    cases s with
    | nil => simp [matchHead] at h
    | cons c cs =>
      simp only [matchHead, Bool.and_eq_true] at h
      simpa using ih h.2

theorem matchHead_append {P : List PTok} {w r : List Char} (h : P.length ≤ w.length) :
    matchHead P (w ++ r) = matchHead P w := by
  induction P generalizing w with
  | nil => simp [matchHead]
  | cons t ts ih =>
    cases w with
    | nil => simp at h
    | cons c cs =>
      simp only [List.cons_append, matchHead, List.append_eq]
      rw [ih (by simpa using h)]

theorem matchHead_take (P : List PTok) (s : List Char) :
    matchHead P (s.take P.length) = matchHead P s := by
  induction P generalizing s with
  | nil => simp [matchHead]
  | cons t ts ih =>
    cases s with
    | nil => simp
    | cons c cs =>
      simp only [List.length_cons, List.take_succ_cons, matchHead]
      rw [ih]

theorem matchHead_no_newline {P : List PTok} {s : List Char}
    (hP : ∀ t ∈ P, tokMatches t '\n' = false) (h : matchHead P s = true) :
    '\n' ∉ s.take P.length := by
  induction P generalizing s with
  | nil => simp
  | cons t ts ih =>
    cases s with
    | nil => simp
    | cons c cs =>
      simp only [matchHead, Bool.and_eq_true] at h
      simp only [List.length_cons, List.take_succ_cons, List.mem_cons, not_or]
      constructor
      · intro hc
        rw [← hc] at h
        exact absurd h.1 (by rw [hP t (List.mem_cons_self t ts)]; simp)
      · exact ih (fun u hu => hP u (List.mem_cons_of_mem t hu)) h.2

theorem fullMatch_nil (P : List PTok) : fullMatch P [] = P.isEmpty := by
  cases P <;> simp [fullMatch, matchHead]

theorem getD_mem_take {s : List Char} {i n : Nat} (h1 : i < n) (h2 : i < s.length) :
    s.getD i ' ' ∈ s.take n := by
  induction s generalizing i n with
  | nil => simp at h2
  | cons a as ih =>
    cases i with
    | zero =>
      obtain ⟨m, rfl⟩ := Nat.exists_eq_succ_of_ne_zero (Nat.pos_iff_ne_zero.mp h1)
      simp [List.getD]
    | succ j =>
      obtain ⟨m, rfl⟩ := Nat.exists_eq_succ_of_ne_zero
        (Nat.pos_iff_ne_zero.mp (Nat.lt_of_le_of_lt (Nat.zero_le _) h1))
      simp only [List.take_succ_cons, List.mem_cons]
      right
      exact ih (Nat.lt_of_succ_lt_succ h1) (by simpa using h2)

theorem scanAux_nil (P : List PTok) (fuel : Nat) :
    scanAux P fuel true [] = (linesOf []).filter (fullMatch P) ∧
    scanAux P fuel false [] = ((linesOf []).tail).filter (fullMatch P) := by
  constructor
  · cases fuel <;> cases P <;> simp [scanAux, linesOf, fullMatch_nil, List.isEmpty]
  · cases fuel <;> simp [scanAux, linesOf]

theorem scanAux_cons_false (P : List PTok) (fuel : Nat) (c : Char) (cs : List Char) :
    scanAux P (fuel + 1) false (c :: cs) = scanAux P fuel (c == '\n') cs := by
  simp [scanAux]

theorem scanAux_cons_true (P : List PTok) (fuel : Nat) (c : Char) (cs : List Char) :
    scanAux P (fuel + 1) true (c :: cs) =
      if matchHead P (c :: cs) && atLineEnd ((c :: cs).drop P.length) then
        (c :: cs).take P.length ::
          scanAux P fuel (((c :: cs).getD (max P.length 1 - 1) ' ') == '\n')
            ((c :: cs).drop (max P.length 1))
      else scanAux P fuel (c == '\n') cs := by
  simp [scanAux]

/-- Key semantic fact: provided no pattern token can match a newline, the
anchored non-overlapping scan of the flat corpus returns exactly the
line-delimited entries that match the whole pattern, in corpus order. -/
theorem scanAux_eq_filter {P : List PTok} (hP : ∀ t ∈ P, tokMatches t '\n' = false) :
    ∀ fuel (s : List Char), s.length ≤ fuel →
      scanAux P fuel true s = (linesOf s).filter (fullMatch P) ∧
      scanAux P fuel false s = ((linesOf s).tail).filter (fullMatch P) := by
  intro fuel
  induction fuel with
  | zero =>
    intro s hs
    have hnil : s = [] := List.eq_nil_of_length_eq_zero (Nat.le_zero.mp hs)
    subst hnil
    exact scanAux_nil P 0
  | succ fuel ih =>
    intro s hs
    cases s with
    | nil => exact scanAux_nil P (fuel + 1)
    | cons c cs =>
      have hcs : cs.length ≤ fuel := by
        simp only [List.length_cons] at hs
        omega
      constructor
      · -- the scan position is at a line start
        rw [scanAux_cons_true]
        by_cases hm : (matchHead P (c :: cs) && atLineEnd ((c :: cs).drop P.length)) = true
        · rw [if_pos hm]
          have hm' := hm
          rw [Bool.and_eq_true] at hm'
          obtain ⟨hm1, hm2⟩ := hm'
          cases P with
          | nil =>
            have hc : c = '\n' := by simpa [atLineEnd] using hm2
            subst hc
            have hget : (('\n' :: cs).getD (max (List.length ([] : List PTok)) 1 - 1) ' '
                == '\n') = true := by simp [List.getD]
            rw [hget]
            simp only [List.length_nil, List.take_zero, Nat.zero_max, List.drop_succ_cons,
              List.drop_zero]
            rw [(ih cs hcs).1]
            simp [linesOf, fullMatch, matchHead]
          | cons t ts =>
            have hmax : max (t :: ts).length 1 = (t :: ts).length := by
              simp only [List.length_cons]
              omega
            have hlen : (t :: ts).length ≤ (c :: cs).length := matchHead_length hm1
            have hnn : '\n' ∉ (c :: cs).take (t :: ts).length := matchHead_no_newline hP hm1
            have hbok : (((c :: cs).getD (max (t :: ts).length 1 - 1) ' ') == '\n') = false := by
              rw [hmax]
              have hmem : (c :: cs).getD ((t :: ts).length - 1) ' ' ∈
                  (c :: cs).take (t :: ts).length :=
                getD_mem_take (by simp) (by simp only [List.length_cons] at hlen ⊢; omega)
              have hne : (c :: cs).getD ((t :: ts).length - 1) ' ' ≠ '\n' := by
                intro hh
                rw [hh] at hmem
                exact hnn hmem
              simpa using hne
            rw [hbok, hmax]
            rcases hdrop : (c :: cs).drop (t :: ts).length with _ | ⟨d, ds⟩
            · -- the match reaches the corpus end
              have hle : (c :: cs).length ≤ (t :: ts).length := by
                rw [← List.drop_eq_nil_iff, hdrop]
              have htake : (c :: cs).take (t :: ts).length = c :: cs :=
                List.take_of_length_le hle
              have hfm : fullMatch (t :: ts) (c :: cs) = true := by
                simp only [fullMatch, Bool.and_eq_true, beq_iff_eq]
                exact ⟨Nat.le_antisymm hlen hle, hm1⟩
              rw [htake, linesOf_no_newline (htake ▸ hnn), (scanAux_nil (t :: ts) fuel).2]
              simp [linesOf, List.filter, hfm]
            · -- the match stops just before a newline
              have hd : d = '\n' := by
                rw [hdrop] at hm2
                simpa [atLineEnd] using hm2
              subst hd
              have hsplit : c :: cs = (c :: cs).take (t :: ts).length ++ '\n' :: ds := by
                conv_lhs => rw [← List.take_append_drop (t :: ts).length (c :: cs)]
                rw [hdrop]
              have hlines : linesOf (c :: cs) =
                  (c :: cs).take (t :: ts).length :: linesOf ds := by
                conv_lhs => rw [hsplit]
                exact linesOf_append_newline hnn
              have hfm : fullMatch (t :: ts) ((c :: cs).take (t :: ts).length) = true := by
                simp only [fullMatch, Bool.and_eq_true, beq_iff_eq]
                refine ⟨?_, by rw [matchHead_take]; exact hm1⟩
                rw [List.length_take]
                simp only [List.length_cons] at hlen ⊢
                omega
              have hds : ds.length + 1 ≤ fuel := by
                have hlcong := congrArg List.length hdrop
                simp only [List.length_drop, List.length_cons] at hlcong hs ⊢
                omega
              rw [hlines]
              simp only [List.filter, hfm]
              have hih := (ih ('\n' :: ds) (by simpa using hds)).2
              rw [hih]
              simp [linesOf]
        · rw [if_neg hm]
          by_cases hc : c = '\n'
          · subst hc
            have hft : ('\n' == '\n') = true := by simp
            rw [hft, (ih cs hcs).1]
            have hPne : P ≠ [] := by
              intro hh
              subst hh
              simp [matchHead, atLineEnd] at hm
            have hfm : fullMatch P [] = false := by
              rw [fullMatch_nil]
              cases P
              · exact absurd rfl hPne
              · rfl
            simp [linesOf, List.filter, hfm]
          · have hff : (c == '\n') = false := by simpa using hc
            rw [hff, (ih cs hcs).2]
            rcases heq : linesOf cs with _ | ⟨l, ls⟩
            · exact absurd heq (linesOf_ne_nil cs)
            · have hlines : linesOf (c :: cs) = (c :: l) :: ls := by
                simp only [linesOf]
                rw [if_neg (by simpa using hc), heq]
              have hfm : fullMatch P (c :: l) = false := by
                by_contra hcon
                have hfm' : fullMatch P (c :: l) = true := by
                  simpa using hcon
                have hfm'' := hfm'
                rw [fullMatch, Bool.and_eq_true] at hfm''
                obtain ⟨hf1, hf2⟩ := hfm''
                obtain ⟨r, hr1, hr2⟩ := linesOf_head_decomp heq
                have hs2 : c :: cs = (c :: l) ++ r := by rw [hr1]; rfl
                apply hm
                have hmh : matchHead P (c :: cs) = true := by
                  rw [hs2, matchHead_append (by rw [beq_iff_eq.mp hf1])]
                  exact hf2
                have hae : atLineEnd ((c :: cs).drop P.length) = true := by
                  rw [hs2, beq_iff_eq.mp hf1, List.drop_left]
                  rcases hr2 with rfl | ⟨r2, rfl⟩
                  · rfl
                  · rfl
                rw [hmh, hae]
                rfl
              rw [hlines]
              simp only [List.filter, hfm, heq]
              simp
      · -- the scan position is inside a line: skip to the next newline
        rw [scanAux_cons_false]
        by_cases hc : c = '\n'
        · subst hc
          have hft : ('\n' == '\n') = true := by simp
          rw [hft, (ih cs hcs).1]
          simp [linesOf]
        · have hff : (c == '\n') = false := by simpa using hc
          rw [hff, (ih cs hcs).2]
          rcases heq : linesOf cs with _ | ⟨l, ls⟩
          · exact absurd heq (linesOf_ne_nil cs)
          · have hlines : linesOf (c :: cs) = (c :: l) :: ls := by
              simp only [linesOf]
              rw [if_neg (by simpa using hc), heq]
            rw [hlines]
            rfl

/-! ### Positionwise description of a full match -/

theorem getD_default_irrel {w : List Char} {i : Nat} (h : i < w.length) (d1 d2 : Char) :
    w.getD i d1 = w.getD i d2 := by
  induction w generalizing i with
  | nil => simp at h
  | cons a as ih =>
    cases i with
    | zero => rfl
    | succ j => simpa using ih (by simpa using h)

theorem getD_map_tok (f : Char → PTok) (p : List Char) (i : Nat) (h : i < p.length) :
    (p.map f).getD i .wild = f (p.getD i ' ') := by
  induction p generalizing i with
  | nil => simp at h
  | cons a as ih =>
    cases i with
    | zero => rfl
    | succ j => simpa using ih j (by simpa using h)

theorem fullMatch_iff {P : List PTok} {w : List Char} :
    fullMatch P w = true ↔ P.length = w.length ∧
      ∀ i, i < P.length → tokMatches (P.getD i .wild) (w.getD i ' ') = true := by
  induction P generalizing w with
  | nil => cases w <;> simp [fullMatch, matchHead]
  | cons t ts ih =>
    cases w with
    | nil => simp [fullMatch, matchHead]
    | cons c cs =>
      constructor
      · intro h
        rw [fullMatch, Bool.and_eq_true] at h
        obtain ⟨hlen, hm⟩ := h
        rw [matchHead, Bool.and_eq_true] at hm
        obtain ⟨ht, hm⟩ := hm
        have hlen' : ts.length = cs.length := by
          simpa using beq_iff_eq.mp hlen
        have hrest := ih.mp (by
          rw [fullMatch, Bool.and_eq_true]
          exact ⟨beq_iff_eq.mpr hlen', hm⟩)
        refine ⟨by simpa using hlen', ?_⟩
        intro i hi
        cases i with
        | zero => simpa using ht
        | succ j => simpa using hrest.2 j (by simpa using hi)
      · rintro ⟨hlen, hall⟩
        have ht := hall 0 (by simp)
        have hrest : fullMatch ts cs = true := ih.mpr
          ⟨by simpa using hlen, fun j hj => by simpa using hall (j + 1) (by simpa using hj)⟩
        rw [fullMatch, Bool.and_eq_true] at hrest ⊢
        rw [matchHead, Bool.and_eq_true]
        refine ⟨by simpa using hlen, by simpa using ht, hrest.2⟩

/-! ### Discharging the no-newline-token side condition -/

/-- The characters a pattern may contain according to the specification
(besides the `+` crossing marker, treated separately). -/
def isPatternChar (c : Char) : Bool :=
  c.isAlpha || c == '.' || c == ' ' || c == '-'

theorem pattern_char_ne_newline {c : Char} (h : isPatternChar c = true) : c ≠ '\n' := by
  intro hh
  subst hh
  revert h
  decide

theorem lit_newline_false {c : Char} (h : c ≠ '\n') : tokMatches (.lit c) '\n' = false := by
  simp only [tokMatches]
  have : Char.toLower '\n' = '\n' := by decide
  rw [this]
  have hne : c.toLower ≠ '\n' := by
    intro hh
    exact h ((toLower_eq_iff (by decide) (by decide)).mp hh)
  simpa using hne

theorem wild_newline_false : tokMatches .wild '\n' = false := by decide

theorem cls_newline_false {cands : List Char} (h : '\n' ∉ cands) :
    tokMatches (.cls cands) '\n' = false := by
  simp only [tokMatches]
  rw [List.any_eq_false]
  intro x hx
  have : Char.toLower '\n' = '\n' := by decide
  rw [this]
  have hne : x.toLower ≠ '\n' := by
    intro hh
    exact h ((toLower_eq_iff (by decide) (by decide)).mp hh ▸ hx)
  simpa using hne

theorem toTokens_newline_false {p : List Char} (hp : '\n' ∉ p) :
    ∀ t ∈ toTokens p, tokMatches t '\n' = false := by
  intro t ht
  obtain ⟨c, hc, rfl⟩ := List.mem_map.mp ht
  by_cases hdot : (c == '.') = true
  · rw [if_pos hdot]
    exact wild_newline_false
  · rw [if_neg hdot]
    exact lit_newline_false (fun hh => hp (hh ▸ hc))

theorem wildcardPlus_newline_false {p : List Char} (hp : '\n' ∉ p) :
    ∀ t ∈ wildcardPlus p, tokMatches t '\n' = false := by
  intro t ht
  obtain ⟨c, hc, rfl⟩ := List.mem_map.mp ht
  by_cases hdot : (c == '.') = true
  · rw [if_pos hdot]
    exact wild_newline_false
  · rw [if_neg hdot]
    by_cases hplus : (c == '+') = true
    · rw [if_pos hplus]
      exact wild_newline_false
    · rw [if_neg hplus]
      exact lit_newline_false (fun hh => hp (hh ▸ hc))

theorem classPlus_newline_false {cands p : List Char} (hc : '\n' ∉ cands) (hp : '\n' ∉ p) :
    ∀ t ∈ classPlus cands p, tokMatches t '\n' = false := by
  intro t ht
  obtain ⟨c, hcm, rfl⟩ := List.mem_map.mp ht
  by_cases hdot : (c == '.') = true
  · rw [if_pos hdot]
    exact wild_newline_false
  · rw [if_neg hdot]
    by_cases hplus : (c == '+') = true
    · rw [if_pos hplus]
      exact cls_newline_false hc
    · rw [if_neg hplus]
      exact lit_newline_false (fun hh => hp (hh ▸ hcm))

theorem reFindAll_eq_filter {P : List PTok} (hP : ∀ t ∈ P, tokMatches t '\n' = false)
    (s : List Char) : reFindAll P s = (linesOf s).filter (fullMatch P) :=
  (scanAux_eq_filter hP s.length s Nat.le.refl).1

/-- With a newline-free pattern, `solve_single_word` returns exactly the
line-delimited corpus entries that match the whole pattern, in order. -/
theorem solve_single_word_eq {p : List Char} (hp : '\n' ∉ p) (C : List Char) :
    solve_single_word p C = (linesOf C).filter (fullMatch (toTokens p)) :=
  reFindAll_eq_filter (toTokens_newline_false hp) C

theorem mem_solve_single_word {p C w : List Char} (hp : '\n' ∉ p) :
    w ∈ solve_single_word p C ↔ w ∈ linesOf C ∧ fullMatch (toTokens p) w = true := by
  rw [solve_single_word_eq hp]
  exact List.mem_filter

/-! ### Claim C1 -/

/-- C1: an entry is returned by `match(P, C)` only if it is a whole
line-delimited corpus entry (never a proper substring of a longer entry),
its length equals the pattern length, and every per-position constraint of
the pattern holds. -/
theorem C1_match_is_whole_anchored_entry {p C w : List Char}
    (hp : ∀ c ∈ p, isPatternChar c = true)
    (hw : w ∈ solve_single_word p C) :
    w ∈ linesOf C ∧ w.length = p.length ∧
      ∀ i, i < p.length →
        (p.getD i ' ' = '.' → isWordChar (w.getD i ' ') = true) ∧
        (p.getD i ' ' ≠ '.' → (w.getD i ' ').toLower = (p.getD i ' ').toLower) := by
  have hnl : '\n' ∉ p := fun hh => pattern_char_ne_newline (hp _ hh) rfl
  obtain ⟨hmem, hfm⟩ := (mem_solve_single_word hnl).mp hw
  obtain ⟨hlen, hall⟩ := fullMatch_iff.mp hfm
  rw [toTokens, List.length_map] at hlen
  refine ⟨hmem, hlen.symm, ?_⟩
  intro i hi
  have htok := hall i (by rw [toTokens, List.length_map]; exact hi)
  rw [toTokens, getD_map_tok _ _ _ hi] at htok
  constructor
  · intro hdot
    rw [if_pos (beq_iff_eq.mpr hdot)] at htok
    simpa [tokMatches] using htok
  · intro hdot
    rw [if_neg (fun hh => hdot (beq_iff_eq.mp hh))] at htok
    exact (beq_iff_eq.mp (by simpa [tokMatches] using htok)).symm

theorem C1_match_is_whole_anchored_entry_witness :
    (∀ c ∈ ".b".data, isPatternChar c = true) ∧
    "ab".data ∈ solve_single_word ".b".data "ab\ncd".data ∧
    ("ab".data ∈ linesOf "ab\ncd".data ∧ "ab".data.length = ".b".data.length ∧
      ∀ i, i < ".b".data.length →
        (".b".data.getD i ' ' = '.' → isWordChar ("ab".data.getD i ' ') = true) ∧
        (".b".data.getD i ' ' ≠ '.' →
          ("ab".data.getD i ' ').toLower = (".b".data.getD i ' ').toLower)) :=
  ⟨by decide, by decide, C1_match_is_whole_anchored_entry (by decide) (by decide)⟩

/-! ### Claim C2 -/

/-- C2 as frozen is too strong: it asserts `match("abandon.ship", C)` is empty
for every corpus containing `"abandon ship"`, but another entry of such a
corpus can match the pattern (the wildcard position only refuses the space of
`"abandon ship"` itself). -/
theorem C2_counterexample :
    "abandon ship".data ∈ linesOf "abandon ship\nabandonxship".data ∧
    solve_single_word "abandon.ship".data "abandon ship\nabandonxship".data =
      ["abandonxship".data] := by decide

/-- C2 (amended): `.` matches exactly one word-character and never a space or
a hyphen, while a space or a hyphen in the pattern matches only that literal
character at that position; consequently `"abandon ship"` is never an element
of `match("abandon.ship", C)` and `"abat-jour"` is never an element of
`match("abat.jour", C)`, whatever the corpus. -/
theorem C2_wildcard_never_space_or_hyphen {p C w : List Char}
    (hp : ∀ c ∈ p, isPatternChar c = true)
    (hw : w ∈ solve_single_word p C) :
    (∀ i, i < p.length → p.getD i ' ' = '.' →
      isWordChar (w.getD i ' ') = true ∧ w.getD i ' ' ≠ ' ' ∧ w.getD i ' ' ≠ '-') ∧
    (∀ i, i < p.length → p.getD i ' ' = ' ' → w.getD i ' ' = ' ') ∧
    (∀ i, i < p.length → p.getD i ' ' = '-' → w.getD i ' ' = '-') ∧
    (∀ D, "abandon ship".data ∉ solve_single_word "abandon.ship".data D) ∧
    (∀ D, "abat-jour".data ∉ solve_single_word "abat.jour".data D) := by
  have hnl : '\n' ∉ p := fun hh => pattern_char_ne_newline (hp _ hh) rfl
  obtain ⟨hmem, hfm⟩ := (mem_solve_single_word hnl).mp hw
  obtain ⟨hlen, hall⟩ := fullMatch_iff.mp hfm
  rw [toTokens, List.length_map] at hlen
  have htok : ∀ i, i < p.length →
      tokMatches (if (p.getD i ' ' == '.') = true then PTok.wild else .lit (p.getD i ' '))
        (w.getD i ' ') = true := by
    intro i hi
    have h := hall i (by rw [toTokens, List.length_map]; exact hi)
    rwa [toTokens, getD_map_tok _ _ _ hi] at h
  refine ⟨?_, ?_, ?_, ?_, ?_⟩
  · intro i hi hdot
    have h := htok i hi
    rw [if_pos (beq_iff_eq.mpr hdot)] at h
    have hwc : isWordChar (w.getD i ' ') = true := by simpa [tokMatches] using h
    refine ⟨hwc, ?_, ?_⟩
    · intro hh
      rw [hh] at hwc
      revert hwc
      decide
    · intro hh
      rw [hh] at hwc
      revert hwc
      decide
  · intro i hi hsp
    have h := htok i hi
    rw [hsp, if_neg (by decide)] at h
    have h2 : (w.getD i ' ').toLower = Char.toLower ' ' := (beq_iff_eq.mp (by
      simpa [tokMatches] using h)).symm
    rw [show Char.toLower ' ' = ' ' from by decide] at h2
    exact (toLower_eq_iff (by decide) (by decide)).mp h2
  · intro i hi hhy
    have h := htok i hi
    rw [hhy, if_neg (by decide)] at h
    have h2 : (w.getD i ' ').toLower = Char.toLower '-' := (beq_iff_eq.mp (by
      simpa [tokMatches] using h)).symm
    rw [show Char.toLower '-' = '-' from by decide] at h2
    exact (toLower_eq_iff (by decide) (by decide)).mp h2
  · intro D hmem2
    have hnl2 : '\n' ∉ "abandon.ship".data := by decide
    obtain ⟨-, hfm2⟩ := (mem_solve_single_word hnl2).mp hmem2
    have h7 := (fullMatch_iff.mp hfm2).2 7 (by decide)
    exact absurd h7 (by decide)
  · intro D hmem2
    have hnl2 : '\n' ∉ "abat.jour".data := by decide
    obtain ⟨-, hfm2⟩ := (mem_solve_single_word hnl2).mp hmem2
    have h4 := (fullMatch_iff.mp hfm2).2 4 (by decide)
    exact absurd h4 (by decide)

theorem C2_wildcard_never_space_or_hyphen_witness :
    (∀ c ∈ ". -".data, isPatternChar c = true) ∧
    "x -".data ∈ solve_single_word ". -".data "x -".data ∧
    ((∀ i, i < ". -".data.length → ". -".data.getD i ' ' = '.' →
      isWordChar ("x -".data.getD i ' ') = true ∧ "x -".data.getD i ' ' ≠ ' ' ∧
        "x -".data.getD i ' ' ≠ '-') ∧
    (∀ i, i < ". -".data.length → ". -".data.getD i ' ' = ' ' →
      "x -".data.getD i ' ' = ' ') ∧
    (∀ i, i < ". -".data.length → ". -".data.getD i ' ' = '-' →
      "x -".data.getD i ' ' = '-') ∧
    (∀ D, "abandon ship".data ∉ solve_single_word "abandon.ship".data D) ∧
    (∀ D, "abat-jour".data ∉ solve_single_word "abat.jour".data D)) :=
  ⟨by decide, by decide,
    @C2_wildcard_never_space_or_hyphen ". -".data "x -".data "x -".data
      (by decide) (by decide)⟩

/-! ### Claim C8 -/

/-- C8: matches preserve their original corpus order (the result is a sublist
of the corpus entries), and a duplicated matching entry is returned once per
corpus occurrence. -/
theorem C8_corpus_order_and_duplicates {p : List Char} (C : List Char)
    (hp : ∀ c ∈ p, isPatternChar c = true) :
    List.Sublist (solve_single_word p C) (linesOf C) ∧
    ∀ w ∈ solve_single_word p C,
      (solve_single_word p C).count w = (linesOf C).count w := by
  have hnl : '\n' ∉ p := fun hh => pattern_char_ne_newline (hp _ hh) rfl
  rw [solve_single_word_eq hnl]
  refine ⟨List.filter_sublist _, ?_⟩
  intro w hw
  exact List.count_filter ((List.mem_filter.mp hw).2)

theorem C8_corpus_order_and_duplicates_witness :
    (∀ c ∈ ".b".data, isPatternChar c = true) ∧
    (List.Sublist (solve_single_word ".b".data "ab\ncd\nab".data)
        (linesOf "ab\ncd\nab".data) ∧
      ∀ w ∈ solve_single_word ".b".data "ab\ncd\nab".data,
        (solve_single_word ".b".data "ab\ncd\nab".data).count w =
          (linesOf "ab\ncd\nab".data).count w) :=
  ⟨by decide, C8_corpus_order_and_duplicates "ab\ncd\nab".data (by decide)⟩

/-! ### Claim C9 -/

theorem matchHead_congr {P Q : List PTok}
    (h : List.Forall₂ (fun t u => ∀ x, tokMatches t x = tokMatches u x) P Q) :
    ∀ s, matchHead P s = matchHead Q s := by
  induction h with
  | nil => intro s; rfl
  | cons ht _ ih =>
    intro s
    cases s with
    | nil => rfl
    | cons c cs => simp [matchHead, ht c, ih cs]

/-- The scan only looks at a pattern through `matchHead` and the pattern
length, so tokenwise-equivalent patterns scan identically. -/
theorem scanAux_congr {P Q : List PTok}
    (h : List.Forall₂ (fun t u => ∀ x, tokMatches t x = tokMatches u x) P Q) :
    ∀ fuel bok s, scanAux P fuel bok s = scanAux Q fuel bok s := by
  have hlen : P.length = Q.length := List.Forall₂.length_eq h
  have hemp : P.isEmpty = Q.isEmpty := by
    cases P <;> cases Q <;> first | rfl | simp at hlen
  intro fuel
  induction fuel with
  | zero => intro bok s; cases s <;> simp [scanAux, hemp]
  | succ fuel ih =>
    intro bok s
    cases s with
    | nil => simp [scanAux, hemp]
    | cons c cs =>
      cases bok with
      | false => rw [scanAux_cons_false, scanAux_cons_false, ih]
      | true =>
        rw [scanAux_cons_true, scanAux_cons_true, matchHead_congr h, hlen]
        by_cases hcond : (matchHead Q (c :: cs) && atLineEnd ((c :: cs).drop Q.length)) = true
        · rw [if_pos hcond, if_pos hcond, ih]
        · rw [if_neg (by simpa using hcond), if_neg (by simpa using hcond), ih]

theorem forall2_map_map (g1 g2 : Char → PTok) (p : List Char)
    (h : ∀ c ∈ p, ∀ x, tokMatches (g1 c) x = tokMatches (g2 c) x) :
    List.Forall₂ (fun t u => ∀ x, tokMatches t x = tokMatches u x) (p.map g1) (p.map g2) := by
  induction p with
  | nil => exact List.Forall₂.nil
  | cons c cs ih =>
    exact List.Forall₂.cons (h c (List.mem_cons_self c cs))
      (ih (fun x hx => h x (List.mem_cons_of_mem c hx)))

theorem encode_toUpper_equiv {c : Char} (hc : c.isAlpha = true ∨ c = '.') :
    ∀ x, tokMatches (if (c.toUpper == '.') = true then PTok.wild else .lit c.toUpper) x
       = tokMatches (if (c == '.') = true then PTok.wild else .lit c) x := by
  rcases hc with hc | rfl
  · have h1 : ¬((c == '.') = true) := by
      intro hh
      rw [beq_iff_eq.mp hh] at hc
      revert hc
      decide
    have h2 : ¬((c.toUpper == '.') = true) := by
      intro hh
      have hup : c.toUpper = '.' := beq_iff_eq.mp hh
      rcases toUpper_spec c with ⟨g1, g2, g3⟩ | ⟨_, g2⟩
      · rw [hup] at g3
        have h46 : ('.' : Char).toNat = 46 := by decide
        omega
      · rw [g2] at hup
        exact h1 (beq_iff_eq.mpr hup)
    intro x
    rw [if_neg h1, if_neg h2]
    simp [tokMatches, toUpper_toLower]
  · intro x
    rw [show Char.toUpper '.' = '.' from by decide]

theorem encode_toLower_equiv {c : Char} (hc : c.isAlpha = true ∨ c = '.') :
    ∀ x, tokMatches (if (c.toLower == '.') = true then PTok.wild else .lit c.toLower) x
       = tokMatches (if (c == '.') = true then PTok.wild else .lit c) x := by
  rcases hc with hc | rfl
  · have h1 : ¬((c == '.') = true) := by
      intro hh
      rw [beq_iff_eq.mp hh] at hc
      revert hc
      decide
    have h2 : ¬((c.toLower == '.') = true) := by
      intro hh
      have hlo : c.toLower = '.' := beq_iff_eq.mp hh
      rcases toLower_spec c with ⟨g1, g2, g3⟩ | ⟨_, g2⟩
      · rw [hlo] at g3
        have h46 : ('.' : Char).toNat = 46 := by decide
        omega
      · rw [g2] at hlo
        exact h1 (beq_iff_eq.mpr hlo)
    intro x
    rw [if_neg h1, if_neg h2]
    simp [tokMatches, toLower_toLower]
  · intro x
    rw [show Char.toLower '.' = '.' from by decide]

/-- C9: for a pattern of letters and `.` only, matching is case-insensitive:
uppercasing or lowercasing the whole pattern leaves the result unchanged. -/
theorem C9_case_insensitive {p : List Char} (C : List Char)
    (hp : ∀ c ∈ p, c.isAlpha = true ∨ c = '.') :
    solve_single_word (p.map Char.toUpper) C = solve_single_word p C ∧
    solve_single_word (p.map Char.toLower) C = solve_single_word p C := by
  constructor
  · have hEq : List.Forall₂ (fun t u => ∀ x, tokMatches t x = tokMatches u x)
        (toTokens (p.map Char.toUpper)) (toTokens p) := by
      rw [toTokens, toTokens, List.map_map]
      exact forall2_map_map _ _ p (fun c hc => encode_toUpper_equiv (hp c hc))
    exact scanAux_congr hEq C.length true C
  · have hEq : List.Forall₂ (fun t u => ∀ x, tokMatches t x = tokMatches u x)
        (toTokens (p.map Char.toLower)) (toTokens p) := by
      rw [toTokens, toTokens, List.map_map]
      exact forall2_map_map _ _ p (fun c hc => encode_toLower_equiv (hp c hc))
    exact scanAux_congr hEq C.length true C

theorem C9_case_insensitive_witness :
    (∀ c ∈ "A.ron".data, c.isAlpha = true ∨ c = '.') ∧
    (solve_single_word ("A.ron".data.map Char.toUpper) "Aaron\nakron".data =
        solve_single_word "A.ron".data "Aaron\nakron".data ∧
      solve_single_word ("A.ron".data.map Char.toLower) "Aaron\nakron".data =
        solve_single_word "A.ron".data "Aaron\nakron".data) :=
  ⟨by decide, C9_case_insensitive "Aaron\nakron".data (by decide)⟩

deriving instance DecidableEq for Except

set_option synthInstance.maxSize 512 in
instance :
    DecidableEq (Except SolveError (List (Char × (List (List Char) × List (List Char))))) :=
  inferInstance

/-! ### Crossing-point facts -/

theorem getD_mem {w : List Char} {i : Nat} (h : i < w.length) (d : Char) : w.getD i d ∈ w := by
  induction w generalizing i with
  | nil => simp at h
  | cons a as ih =>
    cases i with
    | zero => simp
    | succ j => exact List.mem_cons_of_mem a (ih (by simpa using h))

theorem plus_spec {p : List Char} {i : Nat} (h : p.findIdx? (· == '+') = some i) :
    i < p.length ∧ p.getD i ' ' = '+' ∧ ∀ j, j < i → p.getD j ' ' ≠ '+' := by
  obtain ⟨hlt, hp, hmin⟩ := List.findIdx?_eq_some_iff_getElem.mp h
  refine ⟨hlt, ?_, ?_⟩
  · rw [List.getD_eq_getElem?_getD, List.getElem?_eq_getElem hlt]
    simpa using beq_iff_eq.mp hp
  · intro j hj heq
    apply hmin j hj
    rw [List.getD_eq_getElem?_getD, List.getElem?_eq_getElem (Nat.lt_trans hj hlt)] at heq
    simpa using heq

theorem plus_mem {p : List Char} {i : Nat} (h : p.findIdx? (· == '+') = some i) : '+' ∈ p := by
  obtain ⟨hlt, hp, -⟩ := plus_spec h
  rw [← hp]
  exact getD_mem hlt ' '

theorem plus_not_mem_iff {p : List Char} :
    p.findIdx? (· == '+') = none ↔ '+' ∉ p := by
  rw [List.findIdx?_eq_none_iff]
  constructor
  · intro h hm
    simpa using h '+' hm
  · intro h x hx
    simp only [beq_eq_false_iff_ne]
    intro heq
    exact h (heq ▸ hx)

/-! ### Claim C4 -/

/-- C4: the pair solver fails with the invalid-pattern error exactly when one
of the two patterns has no `+` marker, and otherwise always produces a result
mapping (an empty scan or an empty candidate set gives an empty mapping, never
an error). -/
theorem C4_invalid_pattern_iff (p0 p1 C : List Char) :
    ((solve_word_pair p0 p1 C = .error .invalidPattern) ↔ ('+' ∉ p0 ∨ '+' ∉ p1)) ∧
    ('+' ∈ p0 → '+' ∈ p1 → ∃ gs, solve_word_pair p0 p1 C = .ok gs) := by
  rcases h0 : p0.findIdx? (· == '+') with _ | c0
  · have hn0 : '+' ∉ p0 := plus_not_mem_iff.mp h0
    refine ⟨⟨fun _ => Or.inl hn0, fun _ => ?_⟩, fun hm0 _ => absurd hm0 hn0⟩
    simp [solve_word_pair, find_crossing_points, h0]
  · rcases h1 : p1.findIdx? (· == '+') with _ | c1
    · have hn1 : '+' ∉ p1 := plus_not_mem_iff.mp h1
      refine ⟨⟨fun _ => Or.inr hn1, fun _ => ?_⟩, fun _ hm1 => absurd hm1 hn1⟩
      simp only [solve_word_pair, find_crossing_points, h0, h1]
    · have hval : ∃ gs, solve_word_pair p0 p1 C = .ok gs := by
        simp only [solve_word_pair, find_crossing_points, h0, h1]
        split
        · exact ⟨[], rfl⟩
        · exact ⟨_, rfl⟩
      refine ⟨⟨fun herr => ?_, fun hor => ?_⟩, fun _ _ => hval⟩
      · obtain ⟨gs, hgs⟩ := hval
        rw [hgs] at herr
        exact absurd herr (by simp)
      · rcases hor with h | h
        · exact absurd (plus_mem h0) h
        · exact absurd (plus_mem h1) h

theorem C4_invalid_pattern_iff_witness :
    ((solve_word_pair ".a".data "b+".data "x".data = .error .invalidPattern) ↔
      ('+' ∉ ".a".data ∨ '+' ∉ "b+".data)) ∧
    ('+' ∈ ".a".data → '+' ∈ "b+".data →
      ∃ gs, solve_word_pair ".a".data "b+".data "x".data = .ok gs) :=
  C4_invalid_pattern_iff ".a".data "b+".data "x".data

/-! ### Characterizing the pair solver's successful result -/

theorem solve_word_pair_ok {p0 p1 C : List Char} {c0 c1 : Nat}
    (h0 : p0.findIdx? (· == '+') = some c0) (h1 : p1.findIdx? (· == '+') = some c1) :
    solve_word_pair p0 p1 C =
      .ok (make_letter_groups (charsAt c0 (reFindAll (wildcardPlus p0) C)) c0
        (reFindAll (wildcardPlus p0) C) c1
        (reFindAll (classPlus (charsAt c0 (reFindAll (wildcardPlus p0) C)) p1) C)) := by
  simp only [solve_word_pair, find_crossing_points, h0, h1]
  split
  · rename_i hemp
    have hnil : charsAt c0 (reFindAll (wildcardPlus p0) C) = [] := by
      simpa using hemp
    rw [hnil]
    rfl
  · rfl

theorem mem_make_letter_groups {cands : List Char} {i0 i1 : Nat}
    {w0 w1 : List (List Char)} {L : Char} {A B : List (List Char)} :
    (L, (A, B)) ∈ make_letter_groups cands i0 w0 i1 w1 ↔
      L ∈ cands ∧
      A = w0.filter (fun w => (charAt w i0).toLower == L) ∧
      B = w1.filter (fun w => (charAt w i1).toLower == L) ∧
      A ≠ [] ∧ B ≠ [] := by
  simp only [make_letter_groups, List.mem_filterMap]
  constructor
  · rintro ⟨ch, hch, hsome⟩
    by_cases hcond : w0.filter (fun w => (charAt w i0).toLower == ch) ≠ [] ∧
        w1.filter (fun w => (charAt w i1).toLower == ch) ≠ []
    · rw [if_pos hcond] at hsome
      have hpair := Option.some.inj hsome
      rw [Prod.mk.injEq, Prod.mk.injEq] at hpair
      obtain ⟨rfl, rfl, rfl⟩ := hpair
      exact ⟨hch, rfl, rfl, hcond.1, hcond.2⟩
    · rw [if_neg hcond] at hsome
      exact absurd hsome (by simp)
  · rintro ⟨hL, rfl, rfl, hA, hB⟩
    exact ⟨L, hL, by rw [if_pos ⟨hA, hB⟩]⟩

theorem mem_charsAt {L : Char} {pos : Nat} {ws : List (List Char)} :
    L ∈ charsAt pos ws ↔ ws.filter (fun w => (charAt w pos).toLower == L) ≠ [] := by
  rw [charsAt, List.mem_dedup, Ne, List.filter_eq_nil_iff]
  simp only [List.mem_map, beq_iff_eq, not_forall]
  constructor
  · rintro ⟨w, hw, heq⟩
    exact ⟨w, hw, by simp [heq]⟩
  · rintro ⟨w, hw, heq⟩
    exact ⟨w, hw, by simpa using heq⟩

theorem charsAt_mem_spec {pos : Nat} {ws : List (List Char)} {L : Char}
    (h : L ∈ charsAt pos ws) : ∃ w ∈ ws, (charAt w pos).toLower = L := by
  rw [charsAt, List.mem_dedup] at h
  simpa using List.mem_map.mp h

theorem charsAt_lower {pos : Nat} {ws : List (List Char)} :
    ∀ x ∈ charsAt pos ws, x.toLower = x := by
  intro x hx
  obtain ⟨w, -, rfl⟩ := charsAt_mem_spec hx
  exact toLower_toLower _

/-! ### Properties of the first scan's matches at the crossing offset -/

theorem words0_crossing_wordchar {p0 C : List Char} {c0 : Nat} {w : List Char}
    (hnl0 : '\n' ∉ p0) (h0 : p0.findIdx? (· == '+') = some c0)
    (hw : w ∈ reFindAll (wildcardPlus p0) C) :
    isWordChar (charAt w c0) = true ∧ w.length = p0.length ∧ w ∈ linesOf C := by
  rw [reFindAll_eq_filter (wildcardPlus_newline_false hnl0)] at hw
  have hmem := (List.mem_filter.mp hw).1
  have hfm := (List.mem_filter.mp hw).2
  obtain ⟨hlen, hall⟩ := fullMatch_iff.mp hfm
  rw [wildcardPlus, List.length_map] at hlen
  obtain ⟨hlt, hplus, -⟩ := plus_spec h0
  have htok := hall c0 (by rw [wildcardPlus, List.length_map]; exact hlt)
  rw [wildcardPlus, getD_map_tok _ _ _ hlt, hplus] at htok
  rw [if_neg (by decide), if_pos (by decide)] at htok
  have hclt : c0 < w.length := by omega
  have hch : charAt w c0 = w.getD c0 ' ' := getD_default_irrel hclt '?' ' '
  refine ⟨?_, hlen.symm, hmem⟩
  rw [hch]
  simpa [tokMatches] using htok

theorem charsAt_words0_word {p0 C : List Char} {c0 : Nat}
    (hnl0 : '\n' ∉ p0) (h0 : p0.findIdx? (· == '+') = some c0) :
    ∀ x ∈ charsAt c0 (reFindAll (wildcardPlus p0) C), isWordChar x = true := by
  intro x hx
  obtain ⟨w, hw, rfl⟩ := charsAt_mem_spec hx
  rw [isWordChar_toLower]
  exact (words0_crossing_wordchar hnl0 h0 hw).1

theorem charsAt_reFindAll_no_newline {pos : Nat} {C : List Char} {P : List PTok}
    (hP : ∀ t ∈ P, tokMatches t '\n' = false) :
    '\n' ∉ charsAt pos (reFindAll P C) := by
  intro h
  obtain ⟨w, hw, heq⟩ := charsAt_mem_spec h
  rw [reFindAll_eq_filter hP] at hw
  have hwl : w ∈ linesOf C := (List.mem_filter.mp hw).1
  have hnn : '\n' ∉ w := newline_not_mem_linesOf w hwl
  have hne : charAt w pos ≠ '\n' := by
    by_cases hlt : pos < w.length
    · intro hh
      apply hnn
      rw [← hh, charAt]
      exact getD_mem hlt '?'
    · rw [charAt, List.getD_eq_getElem?_getD, List.getElem?_eq_none (by omega)]
      decide
  exact hne ((toLower_eq_iff (by decide) (by decide)).mp heq)

/-! ### Claim C7 -/

/-- C7 fails as stated: a key of the result mapping need not be a letter,
since `\w` also matches digits (and underscore); here the digit `1` is a key. -/
theorem C7_counterexample :
    solve_word_pair "a+".data "+b".data "a1\n1b".data =
      .ok [('1', ([['a', '1']], [['1', 'b']]))] ∧
    ('1' : Char).isLower = false ∧ ('1' : Char).isAlpha = false := by decide

/-- C7 (amended): every key of the mapping returned by the pair solver is the
case-folding of a word-character appearing at pattern 0's crossing offset in
some first-scan match: keys are always lowercase-folded (`key.toLower = key`)
word-characters, but they may be digits or underscores rather than letters. -/
theorem C7_keys_folded_word_chars {p0 p1 C : List Char} {c0 c1 : Nat}
    {gs : List (Char × (List (List Char) × List (List Char)))} {L : Char}
    {A B : List (List Char)}
    (hnl0 : '\n' ∉ p0)
    (h0 : p0.findIdx? (· == '+') = some c0) (h1 : p1.findIdx? (· == '+') = some c1)
    (hok : solve_word_pair p0 p1 C = .ok gs) (hmem : (L, (A, B)) ∈ gs) :
    L.toLower = L ∧ isWordChar L = true ∧
    ∃ w ∈ reFindAll (wildcardPlus p0) C, (charAt w c0).toLower = L := by
  rw [solve_word_pair_ok h0 h1] at hok
  have hgs := Except.ok.inj hok
  subst hgs
  have hL : L ∈ charsAt c0 (reFindAll (wildcardPlus p0) C) :=
    (mem_make_letter_groups.mp hmem).1
  refine ⟨charsAt_lower _ hL, charsAt_words0_word hnl0 h0 _ hL, charsAt_mem_spec hL⟩

theorem C7_keys_folded_word_chars_witness :
    ('\n' ∉ "+oology".data) ∧
    "+oology".data.findIdx? (· == '+') = some 0 ∧
    "ad+e".data.findIdx? (· == '+') = some 2 ∧
    solve_word_pair "+oology".data "ad+e".data "zoology\nadze".data =
      .ok [('z', (["zoology".data], ["adze".data]))] ∧
    ('z', (["zoology".data], ["adze".data])) ∈
      [('z', (["zoology".data], ["adze".data]))] ∧
    (Char.toLower 'z' = 'z' ∧ isWordChar 'z' = true ∧
      ∃ w ∈ reFindAll (wildcardPlus "+oology".data) "zoology\nadze".data,
        (charAt w 0).toLower = 'z') :=
  ⟨by decide, by decide, by decide, by decide, by decide,
    @C7_keys_folded_word_chars "+oology".data "ad+e".data "zoology\nadze".data 0 2
      [('z', (["zoology".data], ["adze".data]))] 'z' ["zoology".data] ["adze".data]
      (by decide) (by decide) (by decide) (by decide) (by decide)⟩

/-! ### Claim C10 -/

/-- C10: when each pattern contains a `+` (one or several), no error is
raised; every `+` occurrence of pattern 0 scans as a single-unknown wildcard,
every `+` occurrence of pattern 1 scans as the candidate character class, and
the crossing offset used on each side is the index of the first `+`
occurrence of that pattern. -/
theorem C10_multiple_plus_first_index {p0 p1 C : List Char} {c0 c1 : Nat}
    (h0 : p0.findIdx? (· == '+') = some c0) (h1 : p1.findIdx? (· == '+') = some c1) :
    (c0 < p0.length ∧ p0.getD c0 ' ' = '+' ∧ ∀ j, j < c0 → p0.getD j ' ' ≠ '+') ∧
    (c1 < p1.length ∧ p1.getD c1 ' ' = '+' ∧ ∀ j, j < c1 → p1.getD j ' ' ≠ '+') ∧
    (∀ i, i < p0.length → p0.getD i ' ' = '+' → (wildcardPlus p0).getD i .wild = .wild) ∧
    (∀ cands i, i < p1.length → p1.getD i ' ' = '+' →
      (classPlus cands p1).getD i .wild = .cls cands) ∧
    solve_word_pair p0 p1 C =
      .ok (make_letter_groups (charsAt c0 (reFindAll (wildcardPlus p0) C)) c0
        (reFindAll (wildcardPlus p0) C) c1
        (reFindAll (classPlus (charsAt c0 (reFindAll (wildcardPlus p0) C)) p1) C)) := by
  refine ⟨plus_spec h0, plus_spec h1, ?_, ?_, solve_word_pair_ok h0 h1⟩
  · intro i hi hp
    rw [wildcardPlus, getD_map_tok _ _ _ hi, hp]
    rw [if_neg (by decide), if_pos (by decide)]
  · intro cands i hi hp
    rw [classPlus, getD_map_tok _ _ _ hi, hp]
    rw [if_neg (by decide), if_pos (by decide)]

theorem C10_multiple_plus_first_index_witness :
    "+x+".data.findIdx? (· == '+') = some 0 ∧
    "++".data.findIdx? (· == '+') = some 0 ∧
    ((0 < "+x+".data.length ∧ "+x+".data.getD 0 ' ' = '+' ∧
        ∀ j, j < 0 → "+x+".data.getD j ' ' ≠ '+') ∧
      (0 < "++".data.length ∧ "++".data.getD 0 ' ' = '+' ∧
        ∀ j, j < 0 → "++".data.getD j ' ' ≠ '+') ∧
      (∀ i, i < "+x+".data.length → "+x+".data.getD i ' ' = '+' →
        (wildcardPlus "+x+".data).getD i .wild = .wild) ∧
      (∀ cands i, i < "++".data.length → "++".data.getD i ' ' = '+' →
        (classPlus cands "++".data).getD i .wild = .cls cands) ∧
      solve_word_pair "+x+".data "++".data "axb\nab".data =
        .ok (make_letter_groups
          (charsAt 0 (reFindAll (wildcardPlus "+x+".data) "axb\nab".data)) 0
          (reFindAll (wildcardPlus "+x+".data) "axb\nab".data) 0
          (reFindAll (classPlus
            (charsAt 0 (reFindAll (wildcardPlus "+x+".data) "axb\nab".data))
            "++".data) "axb\nab".data))) :=
  ⟨by decide, by decide,
    @C10_multiple_plus_first_index "+x+".data "++".data "axb\nab".data 0 0
      (by decide) (by decide)⟩

/-! ### Claim C3 -/

/-- C3: for every key of the result mapping, both word groups are non-empty,
every word of the first group has the key letter (case-folded) at pattern 0's
crossing offset and every word of the second group at pattern 1's, both
groups list corpus entries in corpus order, and a candidate letter with an
empty group on either side is absent from the mapping. -/
theorem C3_group_invariants {p0 p1 C : List Char} {c0 c1 : Nat}
    {gs : List (Char × (List (List Char) × List (List Char)))} {L : Char}
    {A B : List (List Char)}
    (hnl0 : '\n' ∉ p0) (hnl1 : '\n' ∉ p1)
    (h0 : p0.findIdx? (· == '+') = some c0) (h1 : p1.findIdx? (· == '+') = some c1)
    (hok : solve_word_pair p0 p1 C = .ok gs) (hmem : (L, (A, B)) ∈ gs) :
    A ≠ [] ∧ B ≠ [] ∧
    (∀ w ∈ A, (charAt w c0).toLower = L) ∧
    (∀ w ∈ B, (charAt w c1).toLower = L) ∧
    List.Sublist A (linesOf C) ∧ List.Sublist B (linesOf C) ∧
    (∀ ch A2 B2,
      (reFindAll (wildcardPlus p0) C).filter
          (fun w => (charAt w c0).toLower == ch) = [] ∨
        (reFindAll (classPlus (charsAt c0 (reFindAll (wildcardPlus p0) C)) p1) C).filter
          (fun w => (charAt w c1).toLower == ch) = [] →
      (ch, (A2, B2)) ∉ gs) := by
  rw [solve_word_pair_ok h0 h1] at hok
  have hgs := Except.ok.inj hok
  subst hgs
  obtain ⟨hL, hA, hB, hAne, hBne⟩ := mem_make_letter_groups.mp hmem
  have hcandnl : '\n' ∉ charsAt c0 (reFindAll (wildcardPlus p0) C) :=
    charsAt_reFindAll_no_newline (wildcardPlus_newline_false hnl0)
  have hsubl0 : List.Sublist (reFindAll (wildcardPlus p0) C) (linesOf C) := by
    rw [reFindAll_eq_filter (wildcardPlus_newline_false hnl0)]
    exact List.filter_sublist _
  have hsubl1 : List.Sublist
      (reFindAll (classPlus (charsAt c0 (reFindAll (wildcardPlus p0) C)) p1) C)
      (linesOf C) := by
    rw [reFindAll_eq_filter (classPlus_newline_false hcandnl hnl1)]
    exact List.filter_sublist _
  refine ⟨hAne, hBne, ?_, ?_, ?_, ?_, ?_⟩
  · intro w hw
    rw [hA] at hw
    exact beq_iff_eq.mp (List.mem_filter.mp hw).2
  · intro w hw
    rw [hB] at hw
    exact beq_iff_eq.mp (List.mem_filter.mp hw).2
  · rw [hA]
    exact List.Sublist.trans (List.filter_sublist _) hsubl0
  · rw [hB]
    exact List.Sublist.trans (List.filter_sublist _) hsubl1
  · intro ch A2 B2 hor hmem2
    obtain ⟨-, hA2, hB2, hA2ne, hB2ne⟩ := mem_make_letter_groups.mp hmem2
    rcases hor with h | h
    · exact hA2ne (hA2.trans h)
    · exact hB2ne (hB2.trans h)

theorem C3_group_invariants_witness :
    ('\n' ∉ "+a".data) ∧ ('\n' ∉ "b+".data) ∧
    "+a".data.findIdx? (· == '+') = some 0 ∧
    "b+".data.findIdx? (· == '+') = some 1 ∧
    solve_word_pair "+a".data "b+".data "ba\nbb".data =
      .ok [('b', ([['b', 'a']], [['b', 'b']]))] ∧
    ('b', ([['b', 'a']], [['b', 'b']])) ∈ [('b', ([['b', 'a']], [['b', 'b']]))] ∧
    ([['b', 'a']] ≠ ([] : List (List Char)) ∧ [['b', 'b']] ≠ ([] : List (List Char)) ∧
      (∀ w ∈ [['b', 'a']], (charAt w 0).toLower = 'b') ∧
      (∀ w ∈ [['b', 'b']], (charAt w 1).toLower = 'b') ∧
      List.Sublist [['b', 'a']] (linesOf "ba\nbb".data) ∧
      List.Sublist [['b', 'b']] (linesOf "ba\nbb".data) ∧
      (∀ ch A2 B2,
        (reFindAll (wildcardPlus "+a".data) "ba\nbb".data).filter
            (fun w => (charAt w 0).toLower == ch) = [] ∨
          (reFindAll (classPlus
              (charsAt 0 (reFindAll (wildcardPlus "+a".data) "ba\nbb".data))
              "b+".data) "ba\nbb".data).filter
            (fun w => (charAt w 1).toLower == ch) = [] →
        (ch, (A2, B2)) ∉ [('b', ([['b', 'a']], [['b', 'b']]))])) :=
  ⟨by decide, by decide, by decide, by decide, by decide, by decide,
    @C3_group_invariants "+a".data "b+".data "ba\nbb".data 0 1
      [('b', ([['b', 'a']], [['b', 'b']]))] 'b' [['b', 'a']] [['b', 'b']]
      (by decide) (by decide) (by decide) (by decide) (by decide) (by decide)⟩

/-! ### Patterns with a single crossing marker -/

theorem count_one_unique {p : List Char} (hcount : p.count '+' = 1) :
    ∀ i j, i < p.length → j < p.length →
      p.getD i ' ' = '+' → p.getD j ' ' = '+' → i = j := by
  induction p with
  | nil => intro i j hi; simp at hi
  | cons c cs ih =>
    intro i j hi hj hpi hpj
    rw [List.count_cons] at hcount
    by_cases hc : c = '+'
    · have hcs : cs.count '+' = 0 := by
        rw [if_pos (beq_iff_eq.mpr hc)] at hcount
        omega
      have hnm : '+' ∉ cs := List.count_eq_zero.mp hcs
      cases i with
      | zero =>
        cases j with
        | zero => rfl
        | succ j2 =>
          exfalso
          apply hnm
          have hj2 : cs.getD j2 ' ' = '+' := hpj
          rw [← hj2]
          exact getD_mem (by simpa using hj) ' '
      | succ i2 =>
        exfalso
        apply hnm
        have hi2 : cs.getD i2 ' ' = '+' := hpi
        rw [← hi2]
        exact getD_mem (by simpa using hi) ' '
    · have hcs : cs.count '+' = 1 := by
        rw [if_neg (fun hh => hc (beq_iff_eq.mp hh))] at hcount
        omega
      cases i with
      | zero => exact absurd hpi hc
      | succ i2 =>
        cases j with
        | zero => exact absurd hpj hc
        | succ j2 =>
          have := ih hcs i2 j2 (by simpa using hi) (by simpa using hj) hpi hpj
          omega

theorem single_plus_unique {p : List Char} {c : Nat}
    (h : p.findIdx? (· == '+') = some c) (hcount : p.count '+' = 1) :
    ∀ j, j < p.length → j ≠ c → p.getD j ' ' ≠ '+' := by
  obtain ⟨hlt, hp, -⟩ := plus_spec h
  intro j hj hne heq
  exact hne (count_one_unique hcount j c hj hlt heq hp)

theorem plus_of_count_one {p : List Char} (hcount : p.count '+' = 1) : '+' ∈ p := by
  by_contra h
  rw [← List.count_eq_zero] at h
  omega

theorem tokens_eq_off_plus {p1 : List Char} {cands : List Char} {i : Nat}
    (hi : i < p1.length) (hne : p1.getD i ' ' ≠ '+') :
    (classPlus cands p1).getD i .wild = (wildcardPlus p1).getD i .wild := by
  rw [classPlus, getD_map_tok _ _ _ hi, wildcardPlus, getD_map_tok _ _ _ hi]
  by_cases hdot : (p1.getD i ' ' == '.') = true
  · rw [if_pos hdot, if_pos hdot]
  · rw [if_neg hdot, if_neg hdot,
      if_neg (fun hh => hne (beq_iff_eq.mp hh)),
      if_neg (fun hh => hne (beq_iff_eq.mp hh))]

theorem fullMatch_classPlus_iff {p1 : List Char} {c1 : Nat} {cands : List Char}
    {w : List Char} {L : Char}
    (h1 : p1.findIdx? (· == '+') = some c1)
    (huniq : ∀ j, j < p1.length → j ≠ c1 → p1.getD j ' ' ≠ '+')
    (hlower : ∀ x ∈ cands, x.toLower = x)
    (hword : ∀ x ∈ cands, isWordChar x = true)
    (hL : L ∈ cands) (hch : (w.getD c1 ' ').toLower = L) :
    fullMatch (classPlus cands p1) w = true ↔ fullMatch (wildcardPlus p1) w = true := by
  obtain ⟨hlt, hplus, -⟩ := plus_spec h1
  have hlen_c : (classPlus cands p1).length = p1.length := by
    rw [classPlus, List.length_map]
  have hlen_w : (wildcardPlus p1).length = p1.length := by
    rw [wildcardPlus, List.length_map]
  rw [fullMatch_iff, fullMatch_iff, hlen_c, hlen_w]
  constructor
  · rintro ⟨hlen, hall⟩
    refine ⟨hlen, ?_⟩
    intro i hi2
    by_cases hic : i = c1
    · subst hic
      rw [wildcardPlus, getD_map_tok _ _ _ hlt, hplus, if_neg (by decide),
        if_pos (by decide)]
      have h := hall i hlt
      rw [classPlus, getD_map_tok _ _ _ hlt, hplus, if_neg (by decide),
        if_pos (by decide)] at h
      simp only [tokMatches, List.any_eq_true] at h
      obtain ⟨x, hx, hxeq⟩ := h
      have heq2 : x = (w.getD i ' ').toLower := by
        rw [← hlower x hx]
        exact beq_iff_eq.mp hxeq
      simp only [tokMatches]
      rw [← isWordChar_toLower, ← heq2]
      exact hword x hx
    · have h := hall i hi2
      rwa [tokens_eq_off_plus hi2 (huniq i hi2 hic)] at h
  · rintro ⟨hlen, hall⟩
    refine ⟨hlen, ?_⟩
    intro i hi2
    by_cases hic : i = c1
    · subst hic
      rw [classPlus, getD_map_tok _ _ _ hlt, hplus, if_neg (by decide),
        if_pos (by decide)]
      simp only [tokMatches, List.any_eq_true]
      refine ⟨L, hL, ?_⟩
      rw [hlower L hL, hch]
      exact beq_self_eq_true L
    · have h := hall i hi2
      rwa [← tokens_eq_off_plus hi2 (huniq i hi2 hic)] at h

theorem filter_classPlus_collapse {p1 C : List Char} {c1 : Nat} {cands : List Char}
    {L : Char}
    (hnl1 : '\n' ∉ p1) (hcnl : '\n' ∉ cands)
    (h1 : p1.findIdx? (· == '+') = some c1)
    (huniq : ∀ j, j < p1.length → j ≠ c1 → p1.getD j ' ' ≠ '+')
    (hlower : ∀ x ∈ cands, x.toLower = x)
    (hword : ∀ x ∈ cands, isWordChar x = true)
    (hL : L ∈ cands) :
    (reFindAll (classPlus cands p1) C).filter (fun w => (charAt w c1).toLower == L) =
      (reFindAll (wildcardPlus p1) C).filter (fun w => (charAt w c1).toLower == L) := by
  obtain ⟨hlt, -, -⟩ := plus_spec h1
  rw [reFindAll_eq_filter (classPlus_newline_false hcnl hnl1),
    reFindAll_eq_filter (wildcardPlus_newline_false hnl1),
    List.filter_filter, List.filter_filter]
  apply List.filter_congr
  intro w hw
  by_cases hch : ((charAt w c1).toLower == L) = true
  · cases hc : fullMatch (classPlus cands p1) w <;>
      cases hw2 : fullMatch (wildcardPlus p1) w
    · simp
    · exfalso
      have hwl : w.length = p1.length := by
        have h3 := (fullMatch_iff.mp hw2).1
        rw [wildcardPlus, List.length_map] at h3
        omega
      have hch2 : (w.getD c1 ' ').toLower = L := by
        rw [← getD_default_irrel (by omega : c1 < w.length) '?' ' ']
        exact beq_iff_eq.mp hch
      rw [(fullMatch_classPlus_iff h1 huniq hlower hword hL hch2).mpr hw2] at hc
      simp at hc
    · exfalso
      have hwl : w.length = p1.length := by
        have h3 := (fullMatch_iff.mp hc).1
        rw [classPlus, List.length_map] at h3
        omega
      have hch2 : (w.getD c1 ' ').toLower = L := by
        rw [← getD_default_irrel (by omega : c1 < w.length) '?' ' ']
        exact beq_iff_eq.mp hch
      rw [(fullMatch_classPlus_iff h1 huniq hlower hword hL hch2).mp hc] at hw2
      simp at hw2
    · simp
  · have hch2 : ((charAt w c1).toLower == L) = false := by
      simpa using hch
    rw [hch2]
    simp

/-! ### Claim C6 -/

theorem filterMap_congr_mem {α β : Type} (f g : α → Option β) :
    ∀ l : List α, (∀ a ∈ l, f a = g a) → l.filterMap f = l.filterMap g := by
  intro l
  induction l with
  | nil => intro _; rfl
  | cons a as ih =>
    intro h
    rw [List.filterMap_cons, List.filterMap_cons, h a (List.mem_cons_self a as),
      ih (fun x hx => h x (List.mem_cons_of_mem a hx))]

theorem make_letter_groups_congr {cands : List Char} {i0 i1 : Nat}
    {w0 w1 w1' : List (List Char)}
    (h : ∀ ch ∈ cands, w1.filter (fun w => (charAt w i1).toLower == ch) =
      w1'.filter (fun w => (charAt w i1).toLower == ch)) :
    make_letter_groups cands i0 w0 i1 w1 = make_letter_groups cands i0 w0 i1 w1' := by
  rw [make_letter_groups, make_letter_groups]
  apply filterMap_congr_mem
  intro ch hch
  simp only [h ch hch]

/-- Replacing `+` by `.` in a pattern and then compiling is the same as
compiling both `.` and `+` to the wildcard. -/
theorem toTokens_replace_plus_dot (p : List Char) :
    toTokens (p.map (fun c => if c == '+' then '.' else c)) = wildcardPlus p := by
  rw [toTokens, wildcardPlus, List.map_map]
  apply List.map_congr_left
  intro c _
  simp only [Function.comp_apply]
  by_cases hplus : (c == '+') = true
  · have hc : c = '+' := beq_iff_eq.mp hplus
    subst hc
    rfl
  · rw [if_neg hplus, if_neg hplus]

/-- C6 fails as stated: with several `+` occurrences in pattern 1, replacing
all of them by the candidate class constrains positions other than the
crossing offset, so the mapping differs from the `+`-as-`.` run. -/
theorem C6_counterexample :
    solve_word_pair "a+".data "++".data "ac\ncc\nca".data =
      .ok [('c', ([['a', 'c']], [['c', 'c']]))] ∧
    make_letter_groups
        (charsAt 1 (reFindAll (wildcardPlus "a+".data) "ac\ncc\nca".data)) 1
        (reFindAll (wildcardPlus "a+".data) "ac\ncc\nca".data) 0
        (reFindAll (toTokens ("++".data.map (fun c => if c == '+' then '.' else c)))
          "ac\ncc\nca".data) =
      [('c', ([['a', 'c']], [['c', 'c'], ['c', 'a']]))] ∧
    ([['c', 'c']] : List (List Char)) ≠ [['c', 'c'], ['c', 'a']] := by decide

/-- C6 (amended): provided pattern 1 contains exactly one `+`, constraining
its scan by the candidate character class is an optimization with no semantic
effect: the mapping equals the one obtained by running pattern 1 with `+`
treated as `.` and grouping identically; and when the first scan is empty the
result is the empty mapping. -/
theorem C6_class_optimization {p0 p1 C : List Char} {c0 c1 : Nat}
    (hnl0 : '\n' ∉ p0) (hnl1 : '\n' ∉ p1)
    (h0 : p0.findIdx? (· == '+') = some c0) (h1 : p1.findIdx? (· == '+') = some c1)
    (hcount1 : p1.count '+' = 1) :
    solve_word_pair p0 p1 C =
      .ok (make_letter_groups (charsAt c0 (reFindAll (wildcardPlus p0) C)) c0
        (reFindAll (wildcardPlus p0) C) c1
        (reFindAll (toTokens (p1.map (fun c => if c == '+' then '.' else c))) C)) ∧
    (reFindAll (wildcardPlus p0) C = [] → solve_word_pair p0 p1 C = .ok []) := by
  constructor
  · rw [solve_word_pair_ok h0 h1, toTokens_replace_plus_dot]
    congr 1
    apply make_letter_groups_congr
    intro ch hch
    exact filter_classPlus_collapse hnl1
      (charsAt_reFindAll_no_newline (wildcardPlus_newline_false hnl0)) h1
      (single_plus_unique h1 hcount1) charsAt_lower
      (charsAt_words0_word hnl0 h0) hch
  · intro hM0
    rw [solve_word_pair_ok h0 h1, hM0]
    rfl

theorem C6_class_optimization_witness :
    ('\n' ∉ "+a".data) ∧ ('\n' ∉ "x+".data) ∧
    "+a".data.findIdx? (· == '+') = some 0 ∧
    "x+".data.findIdx? (· == '+') = some 1 ∧
    "x+".data.count '+' = 1 ∧
    (solve_word_pair "+a".data "x+".data "ba\nxb".data =
      .ok (make_letter_groups
        (charsAt 0 (reFindAll (wildcardPlus "+a".data) "ba\nxb".data)) 0
        (reFindAll (wildcardPlus "+a".data) "ba\nxb".data) 1
        (reFindAll (toTokens ("x+".data.map (fun c => if c == '+' then '.' else c)))
          "ba\nxb".data)) ∧
    (reFindAll (wildcardPlus "+a".data) "ba\nxb".data = [] →
      solve_word_pair "+a".data "x+".data "ba\nxb".data = .ok [])) :=
  ⟨by decide, by decide, by decide, by decide, by decide,
    @C6_class_optimization "+a".data "x+".data "ba\nxb".data 0 1
      (by decide) (by decide) (by decide) (by decide) (by decide)⟩

/-! ### Claim C5 -/

theorem pair_mem_iff {p0 p1 C : List Char} {c0 c1 : Nat} {L : Char}
    {A B : List (List Char)}
    {gs : List (Char × (List (List Char) × List (List Char)))}
    (hnl0 : '\n' ∉ p0) (hnl1 : '\n' ∉ p1)
    (h0 : p0.findIdx? (· == '+') = some c0) (h1 : p1.findIdx? (· == '+') = some c1)
    (huniq1 : ∀ j, j < p1.length → j ≠ c1 → p1.getD j ' ' ≠ '+')
    (hok : solve_word_pair p0 p1 C = .ok gs) :
    (L, (A, B)) ∈ gs ↔
      A = (reFindAll (wildcardPlus p0) C).filter (fun w => (charAt w c0).toLower == L) ∧
      B = (reFindAll (wildcardPlus p1) C).filter (fun w => (charAt w c1).toLower == L) ∧
      A ≠ [] ∧ B ≠ [] := by
  rw [solve_word_pair_ok h0 h1] at hok
  have hgs := Except.ok.inj hok
  subst hgs
  rw [mem_make_letter_groups]
  constructor
  · rintro ⟨hL, rfl, rfl, hA, hB⟩
    refine ⟨rfl, ?_, hA, hB⟩
    exact filter_classPlus_collapse hnl1
      (charsAt_reFindAll_no_newline (wildcardPlus_newline_false hnl0)) h1 huniq1
      charsAt_lower (charsAt_words0_word hnl0 h0) hL
  · rintro ⟨rfl, hB, hA, hBne⟩
    have hL : L ∈ charsAt c0 (reFindAll (wildcardPlus p0) C) := mem_charsAt.mpr hA
    refine ⟨hL, rfl, ?_, hA, ?_⟩
    · rw [hB]
      exact (filter_classPlus_collapse hnl1
        (charsAt_reFindAll_no_newline (wildcardPlus_newline_false hnl0)) h1 huniq1
        charsAt_lower (charsAt_words0_word hnl0 h0) hL).symm
    · exact hBne

/-- C5 fails as stated: with more than one `+` in a pattern, the two calls
disagree on the groups of the shared viable letter. -/
theorem C5_counterexample :
    ('+' ∈ "a+".data ∧ '+' ∈ "++".data) ∧
    solve_word_pair "a+".data "++".data "ab\nbb\nba".data =
      .ok [('b', ([['a', 'b']], [['b', 'b']]))] ∧
    solve_word_pair "++".data "a+".data "ab\nbb\nba".data =
      .ok [('b', ([['b', 'b'], ['b', 'a']], [['a', 'b']]))] ∧
    (('b', ([['b', 'b']], [['a', 'b']])) :
        Char × (List (List Char) × List (List Char))) ∉
      [('b', ([['b', 'b'], ['b', 'a']], [['a', 'b']]))] := by decide

/-- C5 (amended): for patterns each containing exactly one `+`, a letter is a
key of `solvePair(P0, P1)` with value `(A, B)` exactly when it is a key of
`solvePair(P1, P0)` with value `(B, A)`: the two calls contain the same word
groups with operand order swapped. -/
theorem C5_crossing_symmetry {p0 p1 C : List Char} {c0 c1 : Nat} {L : Char}
    {A B : List (List Char)}
    {gs01 gs10 : List (Char × (List (List Char) × List (List Char)))}
    (hnl0 : '\n' ∉ p0) (hnl1 : '\n' ∉ p1)
    (h0 : p0.findIdx? (· == '+') = some c0) (h1 : p1.findIdx? (· == '+') = some c1)
    (hcount0 : p0.count '+' = 1) (hcount1 : p1.count '+' = 1)
    (h01 : solve_word_pair p0 p1 C = .ok gs01)
    (h10 : solve_word_pair p1 p0 C = .ok gs10) :
    (L, (A, B)) ∈ gs01 ↔ (L, (B, A)) ∈ gs10 := by
  rw [pair_mem_iff hnl0 hnl1 h0 h1 (single_plus_unique h1 hcount1) h01,
    pair_mem_iff hnl1 hnl0 h1 h0 (single_plus_unique h0 hcount0) h10]
  tauto

theorem C5_crossing_symmetry_witness :
    ('\n' ∉ "z+".data) ∧ ('\n' ∉ "+x".data) ∧
    "z+".data.findIdx? (· == '+') = some 1 ∧
    "+x".data.findIdx? (· == '+') = some 0 ∧
    "z+".data.count '+' = 1 ∧ "+x".data.count '+' = 1 ∧
    solve_word_pair "z+".data "+x".data "za\nax".data =
      .ok [('a', ([['z', 'a']], [['a', 'x']]))] ∧
    solve_word_pair "+x".data "z+".data "za\nax".data =
      .ok [('a', ([['a', 'x']], [['z', 'a']]))] ∧
    (('a', ([['z', 'a']], [['a', 'x']])) ∈ [('a', ([['z', 'a']], [['a', 'x']]))] ↔
      ('a', ([['a', 'x']], [['z', 'a']])) ∈ [('a', ([['a', 'x']], [['z', 'a']]))]) :=
  ⟨by decide, by decide, by decide, by decide, by decide, by decide, by decide, by decide,
    @C5_crossing_symmetry "z+".data "+x".data "za\nax".data 1 0 'a'
      [['z', 'a']] [['a', 'x']]
      [('a', ([['z', 'a']], [['a', 'x']]))] [('a', ([['a', 'x']], [['z', 'a']]))]
      (by decide) (by decide) (by decide) (by decide) (by decide) (by decide)
      (by decide) (by decide)⟩
